import Mathlib

/-!
Verification of the argument/URL marshalling layer of
`assets/js/instant-results/functions.js` (ElasticPress instant results).

Embedding conventions:
* A `URLSearchParams` instance is an ordered multimap, embedded as
  `List (String × String)`.  `uspGet` is `URLSearchParams.get` (first match,
  JavaScript returns `null` on a miss, embedded as `none`); `uspSet` is
  `URLSearchParams.set` (update the first pair with the given name, drop the
  other pairs with that name, append when the name is absent); `uspDelete`
  is `URLSearchParams.delete` (remove every pair with the given name).
* A plain JavaScript object used as a map is also an ordered association
  list; `objGet` is property read (first match) and `objSet` is property
  assignment (overwrite in place, append when new).
* The `args` object read by `getUrlParamsFromArgs` is only ever accessed by
  key, so it is embedded as a function `String → Option α`; `none` plays the
  role of JavaScript `undefined` (the code only tests
  `typeof args[arg] !== 'undefined'`).
* The value handed to `sanitizeArg` can be a string, `null` (what
  `URLSearchParams.get` returns on a miss) or `undefined`; `RawParam` keeps
  the three cases apart because the source tests `typeof param !== 'undefined'`.
* `sanitizeArg` / `sanitizeParam` live in `./utilities` and are consumed as
  black boxes, so they are function parameters here; a `null` return is
  `none`.
* A URL is a base (everything but the query string) plus its search
  parameters; `getUrlWithParams` never touches the base.
-/

set_option autoImplicit false

namespace ElasticPress

/-- Value passed to `sanitizeArg`: a raw parameter string, JavaScript
`null`, or JavaScript `undefined`. -/
inductive RawParam where
  | str : String → RawParam
  | null : RawParam
  | undef : RawParam
deriving DecidableEq, Repr

/-- Schema entry, after the `ArgSchema` typedef in the source: an argument
type, an optional default value and an optional list of allowed values.
The marshalling layer passes it to the sanitizers without inspecting it. -/
structure ArgSpec where
  type : String
  default : Option String
  allowedValues : Option (List String)
deriving DecidableEq, Repr

/-- First-match lookup in an ordered association list: JavaScript property
read on an object embedded as a list. -/
def objGet {δ : Type} (o : List (String × δ)) (k : String) : Option δ :=
  match o with
  | [] => none
  | p :: rest => if p.1 = k then some p.2 else objGet rest k

/-- JavaScript property assignment on an object embedded as an ordered
association list: overwrite the first matching key in place, append a new
key at the end. -/
def objSet {δ : Type} (o : List (String × δ)) (k : String) (v : δ) :
    List (String × δ) :=
  match o with
  | [] => [(k, v)]
  | p :: rest => if p.1 = k then (k, v) :: rest else p :: objSet rest k v

/-- Operation `URLSearchParams.get`: value of the first pair with the given name,
`null` (`none`) when absent. -/
def uspGet (ps : List (String × String)) (k : String) : Option String :=
  objGet ps k

/-- Operation `URLSearchParams.set`: update the value of the first pair with the given
name and remove the other pairs with that name; append when absent. -/
def uspSet (ps : List (String × String)) (k v : String) :
    List (String × String) :=
  match ps with
  | [] => [(k, v)]
  | p :: rest =>
    if p.1 = k then (k, v) :: rest.filter (fun q => q.1 != k)
    else p :: uspSet rest k v

/-- Operation `URLSearchParams.delete`: remove every pair with the given name. -/
def uspDelete (ps : List (String × String)) (k : String) :
    List (String × String) :=
  ps.filter (fun p => p.1 != k)

/-- JavaScript `key.startsWith(paramPrefix)`: the second string is a prefix
of the first, decided character by character. -/
def strStartsWith (s p : String) : Bool :=
  p.data.isPrefixOf s.data

/-- Wrap the result of `uspGet` the way the source receives it: a raw string
when the parameter is present, JavaScript `null` when absent.
`URLSearchParams.get` never returns `undefined`. -/
def toRaw : Option String → RawParam
  | some s => RawParam.str s
  | none => RawParam.null

/-- The `value` ternary inside `getUrlParamsFromArgs`:
`typeof args[arg] !== 'undefined' ? sanitizeParam(args[arg], options) : null`. -/
def serializeValue {α σ : Type} (args : String → Option α)
    (sanitizeParam : α → σ → Option String) (x : String × σ) : Option String :=
  match args x.1 with
  | some v => sanitizeParam v x.2
  | none => none

/-- Function `getUrlParamsFromArgs` from the source: walk the schema entries in
order; for each argument whose value is defined, ask `sanitizeParam` for a
string and set `prefix + arg` to it unless the sanitizer returned `null`. -/
def getUrlParamsFromArgs {α σ : Type} (args : String → Option α)
    (schema : List (String × σ)) (pre : String)
    (sanitizeParam : α → σ → Option String) : List (String × String) :=
  schema.foldl
    (fun urlParams x =>
      match serializeValue args sanitizeParam x with
      | some v => uspSet urlParams (pre ++ x.1) v
      | none => urlParams)
    []

/-- The `param`/`value` bindings inside `getArgsFromUrlParams`:
`param = urlParams.get(prefix + arg)` (a string, or `null` on a miss, never
`undefined`), then
`value = typeof param !== 'undefined' ? sanitizeArg(param, options, useDefaults) : null`. -/
def deserializeValue {β σ : Type} (urlParams : List (String × String))
    (pre : String) (useDefaults : Bool)
    (sanitizeArg : RawParam → σ → Bool → Option β) (x : String × σ) :
    Option β :=
  let param := toRaw (uspGet urlParams (pre ++ x.1))
  if param ≠ RawParam.undef then sanitizeArg param x.2 useDefaults else none

/-- Function `getArgsFromUrlParams` from the source: walk the schema entries in
order, compute the sanitized value of each entry, and bind the argument
unless the sanitizer returned `null`. -/
def getArgsFromUrlParams {β σ : Type} (urlParams : List (String × String))
    (schema : List (String × σ)) (pre : String) (useDefaults : Bool)
    (sanitizeArg : RawParam → σ → Bool → Option β) : List (String × β) :=
  schema.foldl
    (fun args x =>
      match deserializeValue urlParams pre useDefaults sanitizeArg x with
      | some v => objSet args x.1 v
      | none => args)
    []

/-- The per-entry value of the deserialization described by the spec (§4.2
and claim C1): `sanitizeArg` receives the raw parameter string when
`prefix+key` is present and `undefined` when it is absent. -/
def deserializeValueSpec {β σ : Type} (urlParams : List (String × String))
    (pre : String) (useDefaults : Bool)
    (sanitizeArg : RawParam → σ → Bool → Option β) (x : String × σ) :
    Option β :=
  match uspGet urlParams (pre ++ x.1) with
  | some s => sanitizeArg (RawParam.str s) x.2 useDefaults
  | none => sanitizeArg RawParam.undef x.2 useDefaults

/-- Modelled from the spec: the deserialization described by §4.2 and claim
C1.  This is the spec-side reference point; the source
(`getArgsFromUrlParams`) is compared against it. -/
def getArgsFromUrlParamsSpec {β σ : Type} (urlParams : List (String × String))
    (schema : List (String × σ)) (pre : String) (useDefaults : Bool)
    (sanitizeArg : RawParam → σ → Bool → Option β) : List (String × β) :=
  schema.foldl
    (fun args x =>
      match deserializeValueSpec urlParams pre useDefaults sanitizeArg x with
      | some v => objSet args x.1 v
      | none => args)
    []

/-- A URL: the part before the query string, plus the ordered search
parameters. -/
structure URLModel where
  base : String
  searchParams : List (String × String)
deriving DecidableEq, Repr

/-- Function `getUrlWithParams` from the source: snapshot the current keys, delete
every key that starts with the prefix, then (when a parameter set is
supplied) set every supplied pair in iteration order. -/
def getUrlWithParams (current : URLModel) (pre : String)
    (params : Option (List (String × String))) : URLModel :=
  let keys := current.searchParams.map Prod.fst
  let stripped :=
    keys.foldl (fun u k => if strStartsWith k pre then uspDelete u k else u)
      current.searchParams
  let final :=
    match params with
    | some ps => ps.foldl (fun u kv => uspSet u kv.1 kv.2) stripped
    | none => stripped
  ⟨current.base, final⟩

/-- Operation `FormData.getAll`: every value submitted under the given field name, in
order. -/
def formGetAll (formData : List (String × String)) (name : String) :
    List String :=
  (formData.filter (fun p => p.1 == name)).map Prod.snd

/-- Operation `FormData.has`: whether any value was submitted under the given field
name. -/
def formHas (formData : List (String × String)) (name : String) : Bool :=
  formData.any (fun p => p.1 == name)

/-- JavaScript `array.slice(-1)`: the last element as a one-element list,
empty on an empty array. -/
def jsSliceLastOne (l : List String) : List String :=
  match l.getLast? with
  | some v => [v]
  | none => []

/-- Function `getPostTypesFromForm` from the source: the last `post_type` value when
that field is present, otherwise all `post_type[]` values, otherwise the
empty list.  A form is embedded as its `FormData` entry list. -/
def getPostTypesFromForm (formData : List (String × String)) : List String :=
  if formHas formData "post_type" then
    jsSliceLastOne (formGetAll formData "post_type")
  else if formHas formData "post_type[]" then
    formGetAll formData "post_type[]"
  else
    []

/-- Options baked into the `Intl.NumberFormat` call in `formatPrice`. -/
def priceFormatDefaults : List (String × String) :=
  [("style", "currency"), ("currencyDisplay", "narrowSymbol")]

/-- JavaScript object spread `{ ...base, ...overrides }` restricted to the
shape used in `formatPrice`: start from the literal's earlier properties and
assign every property of `overrides` in order. -/
def spreadMerge (base overrides : List (String × String)) :
    List (String × String) :=
  overrides.foldl (fun acc kv => objSet acc kv.1 kv.2) base

/-- Function `formatPrice` from the source: build an `Intl.NumberFormat` for the
runtime locale (`navigator.language`) with the caller options spread over
the currency defaults, and format the number with it.  The platform
formatter is a black box, passed as `numberFormat`. -/
def formatPrice {α : Type}
    (numberFormat : String → List (String × String) → α → String)
    (navigatorLanguage : String) (number : α)
    (options : List (String × String)) : String :=
  numberFormat navigatorLanguage (spreadMerge priceFormatDefaults options)
    number

/-! ### Helper lemmas about the association-list primitives -/

theorem objGet_eq_none_of_not_mem {δ : Type} {o : List (String × δ)}
    {k : String} (h : k ∉ o.map Prod.fst) : objGet o k = none := by
  induction o with
  | nil => rfl
  | cons p rest ih =>
    simp only [List.map_cons, List.mem_cons, not_or] at h
    simp only [objGet]
    rw [if_neg (fun hpk => h.1 hpk.symm)]
    exact ih h.2

theorem objGet_objSet {δ : Type} (o : List (String × δ)) (k k' : String)
    (v : δ) :
    objGet (objSet o k v) k' = if k' = k then some v else objGet o k' := by
  induction o with
  | nil =>
    by_cases h : k' = k
    · simp [objSet, objGet, h]
    · simp [objSet, objGet, h, Ne.symm h]
  | cons p rest ih =>
    by_cases hp : p.1 = k
    · by_cases h : k' = k
      · simp [objSet, objGet, hp, h]
      · have hpk' : ¬p.1 = k' := fun hh => h (hp.symm.trans hh).symm
        simp [objSet, objGet, hp, h, Ne.symm h, hpk']
    · by_cases h : k' = k
      · have hpk' : ¬p.1 = k' := fun hh => hp (hh.trans h)
        subst h
        simp [objSet, objGet, hp, hpk', ih]
      · simp [objSet, objGet, hp, h, ih]

theorem objSet_of_not_mem {δ : Type} {o : List (String × δ)} {k : String}
    (v : δ) (h : k ∉ o.map Prod.fst) : objSet o k v = o ++ [(k, v)] := by
  induction o with
  | nil => rfl
  | cons p rest ih =>
    simp only [List.map_cons, List.mem_cons, not_or] at h
    simp only [objSet]
    rw [if_neg (fun hpk => h.1 hpk.symm)]
    rw [ih h.2]
    simp

theorem uspSet_of_not_mem {ps : List (String × String)} {k : String}
    (v : String) (h : k ∉ ps.map Prod.fst) : uspSet ps k v = ps ++ [(k, v)] := by
  induction ps with
  | nil => rfl
  | cons p rest ih =>
    simp only [List.map_cons, List.mem_cons, not_or] at h
    simp only [uspSet]
    rw [if_neg (fun hpk => h.1 hpk.symm)]
    rw [ih h.2]
    simp

theorem keys_uspSet_subset (ps : List (String × String)) (k v : String) :
    ∀ k' ∈ (uspSet ps k v).map Prod.fst, k' = k ∨ k' ∈ ps.map Prod.fst := by
  induction ps with
  | nil =>
    intro k' hk'
    simp only [uspSet, List.map_cons, List.map_nil, List.mem_singleton] at hk'
    exact Or.inl hk'
  | cons p rest ih =>
    intro k' hk'
    simp only [uspSet] at hk'
    by_cases hp : p.1 = k
    · rw [if_pos hp] at hk'
      simp only [List.map_cons, List.mem_cons] at hk'
      rcases hk' with h | h
      · exact Or.inl h
      · right
        simp only [List.map_cons, List.mem_cons]
        right
        rcases List.mem_map.mp h with ⟨q, hq, hqk⟩
        exact hqk ▸ List.mem_map_of_mem Prod.fst (List.mem_of_mem_filter hq)
    · rw [if_neg hp] at hk'
      simp only [List.map_cons, List.mem_cons] at hk'
      rcases hk' with h | h
      · right
        simp [h]
      · rcases ih k' h with h2 | h2
        · exact Or.inl h2
        · right
          simp only [List.map_cons, List.mem_cons]
          exact Or.inr h2

theorem mem_keys_uspSet_self (ps : List (String × String)) (k v : String) :
    k ∈ (uspSet ps k v).map Prod.fst := by
  induction ps with
  | nil => simp [uspSet]
  | cons p rest ih =>
    simp only [uspSet]
    by_cases hp : p.1 = k
    · simp [hp]
    · simpa [hp] using Or.inr ih

theorem mem_keys_uspSet_of_mem {ps : List (String × String)} {k' : String}
    (k v : String) (h : k' ∈ ps.map Prod.fst) :
    k' ∈ (uspSet ps k v).map Prod.fst := by
  by_cases hkk : k' = k
  · exact hkk ▸ mem_keys_uspSet_self ps k v
  · induction ps with
    | nil => simp at h
    | cons p rest ih =>
      simp only [List.map_cons, List.mem_cons] at h
      simp only [uspSet]
      by_cases hp : p.1 = k
      · rw [if_pos hp]
        rcases h with h | h
        · exact absurd (h ▸ hp) hkk
        · rcases List.mem_map.mp h with ⟨q, hq, hqk⟩
          simp only [List.map_cons, List.mem_cons]
          right
          have hqf : q ∈ rest.filter (fun q => q.1 != k) :=
            List.mem_filter.mpr ⟨hq, by simp [hqk, hkk]⟩
          exact hqk ▸ List.mem_map_of_mem Prod.fst hqf
      · rw [if_neg hp]
        simp only [List.map_cons, List.mem_cons]
        rcases h with h | h
        · exact Or.inl h
        · exact Or.inr (ih h)

theorem nodup_keys_uspSet {ps : List (String × String)} (k v : String)
    (h : (ps.map Prod.fst).Nodup) : ((uspSet ps k v).map Prod.fst).Nodup := by
  induction ps with
  | nil => simp [uspSet]
  | cons p rest ih =>
    simp only [List.map_cons, List.nodup_cons] at h
    simp only [uspSet]
    by_cases hp : p.1 = k
    · rw [if_pos hp]
      simp only [List.map_cons, List.nodup_cons]
      constructor
      · intro hk
        rcases List.mem_map.mp hk with ⟨q, hq, hqk⟩
        have := (List.mem_filter.mp hq).2
        simp [hqk] at this
      · exact h.2.sublist ((List.filter_sublist rest).map Prod.fst)
    · rw [if_neg hp]
      simp only [List.map_cons, List.nodup_cons]
      refine ⟨fun hk => ?_, ih h.2⟩
      rcases keys_uspSet_subset rest k v p.1 hk with h2 | h2
      · exact hp h2
      · exact h.1 h2

theorem uspSet_append_left {a : List (String × String)}
    (b : List (String × String)) {k : String} (v : String)
    (h : k ∉ a.map Prod.fst) : uspSet (a ++ b) k v = a ++ uspSet b k v := by
  induction a with
  | nil => rfl
  | cons p rest ih =>
    simp only [List.map_cons, List.mem_cons, not_or] at h
    simp only [List.cons_append, uspSet]
    rw [if_neg (fun hpk => h.1 hpk.symm), List.append_eq, ih h.2]

theorem objGet_eq_some_of_mem {δ : Type} {o : List (String × δ)} {k : String}
    {v : δ} (hnd : (o.map Prod.fst).Nodup) (h : (k, v) ∈ o) :
    objGet o k = some v := by
  induction o with
  | nil => simp at h
  | cons p rest ih =>
    simp only [List.map_cons, List.nodup_cons] at hnd
    rcases List.mem_cons.mp h with h | h
    · rw [← h]
      simp [objGet]
    · have hpk : ¬p.1 = k := by
        intro hh
        exact hnd.1 (hh ▸ (List.mem_map_of_mem Prod.fst h : k ∈ rest.map Prod.fst))
      simp [objGet, hpk, ih hnd.2 h]

/-- Folding a set-style update over entries with pairwise distinct fresh
keys builds exactly the filterMap of the defined values, in entry order. -/
theorem foldl_build_eq_filterMap {γ δ : Type}
    (step : List (String × δ) → γ → List (String × δ))
    (key : γ → String) (val : γ → Option δ)
    (hnone : ∀ acc x, val x = none → step acc x = acc)
    (hsome : ∀ acc x v, val x = some v → key x ∉ acc.map Prod.fst →
      step acc x = acc ++ [(key x, v)]) :
    ∀ (l : List γ) (acc : List (String × δ)),
      (l.map key).Nodup →
      (∀ x ∈ l, key x ∉ acc.map Prod.fst) →
      l.foldl step acc
        = acc ++ l.filterMap (fun x => (val x).map (fun v => (key x, v))) := by
  intro l
  induction l with
  | nil =>
    intro acc _ _
    simp
  | cons x l ih =>
    intro acc hnd hdisj
    simp only [List.map_cons, List.nodup_cons] at hnd
    simp only [List.foldl_cons]
    cases hv : val x with
    | none =>
      rw [hnone acc x hv]
      rw [ih acc hnd.2 (fun y hy => hdisj y (List.mem_cons_of_mem x hy))]
      simp [List.filterMap_cons, hv]
    | some v =>
      rw [hsome acc x v hv (hdisj x (List.mem_cons_self x l))]
      have hd : ∀ y ∈ l, key y ∉ (acc ++ [(key x, v)]).map Prod.fst := by
        intro y hy hmem
        rw [List.map_append] at hmem
        rcases List.mem_append.mp hmem with h | h
        · exact hdisj y (List.mem_cons_of_mem x hy) h
        · have hyx : key y = key x := by simpa using h
          exact hnd.1 (hyx ▸ List.mem_map_of_mem key hy)
      rw [ih (acc ++ [(key x, v)]) hnd.2 hd]
      simp [List.filterMap_cons, hv]

theorem keys_filterMap_sublist {γ δ : Type} (l : List γ) (key : γ → String)
    (val : γ → Option δ) :
    ((l.filterMap (fun x => (val x).map (fun v => (key x, v)))).map
        Prod.fst).Sublist (l.map key) := by
  induction l with
  | nil => simp
  | cons x l ih =>
    cases hv : val x with
    | none =>
      simp only [List.filterMap_cons, hv, Option.map_none', List.map_cons]
      exact ih.cons (key x)
    | some v =>
      simp only [List.filterMap_cons, hv, Option.map_some', List.map_cons]
      exact ih.cons₂ (key x)

theorem string_append_right_inj (pre : String) {a b : String}
    (h : pre ++ a = pre ++ b) : a = b := by
  have h2 : (pre ++ a).data = (pre ++ b).data := by rw [h]
  rw [String.data_append, String.data_append] at h2
  exact String.ext (List.append_cancel_left h2)

theorem nodup_pre_keys {σ : Type} {schema : List (String × σ)} (pre : String)
    (hnd : (schema.map Prod.fst).Nodup) :
    (schema.map (fun x => pre ++ x.1)).Nodup := by
  have heq : schema.map (fun x => pre ++ x.1)
      = (schema.map Prod.fst).map (fun s => pre ++ s) := by
    simp [List.map_map]
  rw [heq]
  exact hnd.map (fun a b hab => string_append_right_inj pre hab)

/-! ### Characterizations of the two marshalling directions -/

theorem getUrlParamsFromArgs_eq_filterMap {α σ : Type}
    (args : String → Option α) (schema : List (String × σ)) (pre : String)
    (san : α → σ → Option String) (hnd : (schema.map Prod.fst).Nodup) :
    getUrlParamsFromArgs args schema pre san
      = schema.filterMap (fun x =>
          (serializeValue args san x).map (fun s => (pre ++ x.1, s))) := by
  have h := foldl_build_eq_filterMap
    (fun urlParams x =>
      match serializeValue args san x with
      | some v => uspSet urlParams (pre ++ x.1) v
      | none => urlParams)
    (fun x => pre ++ x.1) (serializeValue args san)
    (fun acc x hx => by
      show (match serializeValue args san x with
            | some v => uspSet acc (pre ++ x.1) v
            | none => acc) = acc
      rw [(hx : serializeValue args san x = none)])
    (fun acc x v hx hmem => by
      show (match serializeValue args san x with
            | some v => uspSet acc (pre ++ x.1) v
            | none => acc) = acc ++ [(pre ++ x.1, v)]
      rw [(hx : serializeValue args san x = some v)]
      exact uspSet_of_not_mem v hmem)
    schema [] (nodup_pre_keys pre hnd) (by simp)
  simpa [getUrlParamsFromArgs] using h

theorem getArgsFromUrlParams_eq_filterMap {β σ : Type}
    (urlParams : List (String × String)) (schema : List (String × σ))
    (pre : String) (useDefaults : Bool)
    (san : RawParam → σ → Bool → Option β)
    (hnd : (schema.map Prod.fst).Nodup) :
    getArgsFromUrlParams urlParams schema pre useDefaults san
      = schema.filterMap (fun x =>
          (san (toRaw (uspGet urlParams (pre ++ x.1))) x.2 useDefaults).map
            (fun v => (x.1, v))) := by
  have hval : ∀ x : String × σ,
      deserializeValue urlParams pre useDefaults san x
        = san (toRaw (uspGet urlParams (pre ++ x.1))) x.2 useDefaults := by
    intro x
    have hne : toRaw (uspGet urlParams (pre ++ x.1)) ≠ RawParam.undef := by
      cases uspGet urlParams (pre ++ x.1) <;> simp [toRaw]
    simp [deserializeValue, hne]
  have h := foldl_build_eq_filterMap
    (fun args x =>
      match deserializeValue urlParams pre useDefaults san x with
      | some v => objSet args x.1 v
      | none => args)
    Prod.fst (deserializeValue urlParams pre useDefaults san)
    (fun acc x hx => by
      show (match deserializeValue urlParams pre useDefaults san x with
            | some v => objSet acc x.1 v
            | none => acc) = acc
      rw [(hx : deserializeValue urlParams pre useDefaults san x = none)])
    (fun acc x v hx hmem => by
      show (match deserializeValue urlParams pre useDefaults san x with
            | some v => objSet acc x.1 v
            | none => acc) = acc ++ [(x.1, v)]
      rw [(hx : deserializeValue urlParams pre useDefaults san x = some v)]
      exact objSet_of_not_mem v hmem)
    schema [] hnd (by simp)
  unfold getArgsFromUrlParams
  rw [h]
  simp [hval]

/-! ### The URL rewrite: the delete loop is a filter -/

theorem strip_foldl_eq_filter (pre : String) :
    ∀ (ks : List String) (u : List (String × String)),
      ks.foldl (fun acc k => if strStartsWith k pre then uspDelete acc k else acc)
          u
        = u.filter (fun p => !(strStartsWith p.1 pre && decide (p.1 ∈ ks))) := by
  intro ks
  induction ks with
  | nil =>
    intro u
    simp
  | cons k ks ih =>
    intro u
    simp only [List.foldl_cons]
    rw [ih]
    by_cases hk : strStartsWith k pre
    · rw [if_pos hk]
      show (uspDelete u k).filter _ = _
      rw [uspDelete, List.filter_filter]
      congr 1
      funext p
      by_cases hpk : p.1 = k
      · simp [hpk, hk]
      · simp [hpk]
    · rw [if_neg hk]
      congr 1
      funext p
      by_cases hpk : p.1 = k
      · have hk2 : strStartsWith k pre = false := by simpa using hk
        simp [hpk, hk2]
      · simp [hpk]

theorem strip_eq_filter (pre : String) (u : List (String × String)) :
    (u.map Prod.fst).foldl
        (fun acc k => if strStartsWith k pre then uspDelete acc k else acc) u
      = u.filter (fun p => !(strStartsWith p.1 pre)) := by
  rw [strip_foldl_eq_filter]
  apply List.filter_congr
  intro p hp
  have hmem : p.1 ∈ u.map Prod.fst := List.mem_map_of_mem Prod.fst hp
  simp [hmem]

theorem getUrlWithParams_none (current : URLModel) (pre : String) :
    getUrlWithParams current pre none
      = ⟨current.base,
          current.searchParams.filter (fun p => !(strStartsWith p.1 pre))⟩ := by
  show URLModel.mk current.base
      ((current.searchParams.map Prod.fst).foldl
        (fun u k => if strStartsWith k pre then uspDelete u k else u)
        current.searchParams) = _
  rw [strip_eq_filter]

theorem getUrlWithParams_some (current : URLModel) (pre : String)
    (ps : List (String × String)) :
    getUrlWithParams current pre (some ps)
      = ⟨current.base,
          ps.foldl (fun u kv => uspSet u kv.1 kv.2)
            (current.searchParams.filter
              (fun p => !(strStartsWith p.1 pre)))⟩ := by
  show URLModel.mk current.base
      (ps.foldl (fun u kv => uspSet u kv.1 kv.2)
        ((current.searchParams.map Prod.fst).foldl
          (fun u k => if strStartsWith k pre then uspDelete u k else u)
          current.searchParams)) = _
  rw [strip_eq_filter]

/-! ### Setting parameters inside a prefix namespace -/

theorem foldl_uspSet_append (pre : String) (ps : List (String × String)) :
    ∀ (a b : List (String × String)),
      (∀ kv ∈ ps, strStartsWith kv.1 pre = true) →
      (∀ k ∈ a.map Prod.fst, strStartsWith k pre = false) →
      ps.foldl (fun u kv => uspSet u kv.1 kv.2) (a ++ b)
        = a ++ ps.foldl (fun u kv => uspSet u kv.1 kv.2) b := by
  induction ps with
  | nil =>
    intro a b _ _
    simp
  | cons kv ps ih =>
    intro a b hps ha
    simp only [List.foldl_cons]
    have hnm : kv.1 ∉ a.map Prod.fst := by
      intro hmem
      have hf := ha kv.1 hmem
      rw [hps kv (List.mem_cons_self kv ps)] at hf
      exact Bool.noConfusion hf
    rw [uspSet_append_left b kv.2 hnm]
    exact ih a (uspSet b kv.1 kv.2)
      (fun q hq => hps q (List.mem_cons_of_mem kv hq)) ha

theorem keys_foldl_uspSet_prefixed (pre : String) (ps : List (String × String)) :
    ∀ (b : List (String × String)),
      (∀ kv ∈ ps, strStartsWith kv.1 pre = true) →
      (∀ k ∈ b.map Prod.fst, strStartsWith k pre = true) →
      ∀ k ∈ (ps.foldl (fun u kv => uspSet u kv.1 kv.2) b).map Prod.fst,
        strStartsWith k pre = true := by
  induction ps with
  | nil =>
    intro b _ hb
    simpa using hb
  | cons kv ps ih =>
    intro b hps hb
    simp only [List.foldl_cons]
    refine ih (uspSet b kv.1 kv.2)
      (fun q hq => hps q (List.mem_cons_of_mem kv hq)) ?_
    intro k hk
    rcases keys_uspSet_subset b kv.1 kv.2 k hk with h | h
    · exact h ▸ hps kv (List.mem_cons_self kv ps)
    · exact hb k h

/-! ### Frame and congruence helpers -/

theorem foldl_congr_step {γ δ : Type} (step₁ step₂ : δ → γ → δ)
    (l : List γ) (h : ∀ acc x, x ∈ l → step₁ acc x = step₂ acc x) :
    ∀ acc, l.foldl step₁ acc = l.foldl step₂ acc := by
  induction l with
  | nil => intro acc; rfl
  | cons x l ih =>
    intro acc
    simp only [List.foldl_cons]
    rw [h acc x (List.mem_cons_self x l)]
    exact ih (fun acc y hy => h acc y (List.mem_cons_of_mem x hy)) _

theorem keys_objSet_subset {δ : Type} (o : List (String × δ)) (k : String)
    (v : δ) :
    ∀ k' ∈ (objSet o k v).map Prod.fst, k' = k ∨ k' ∈ o.map Prod.fst := by
  induction o with
  | nil =>
    intro k' hk'
    simp only [objSet, List.map_cons, List.map_nil, List.mem_singleton] at hk'
    exact Or.inl hk'
  | cons p rest ih =>
    intro k' hk'
    simp only [objSet] at hk'
    by_cases hp : p.1 = k
    · rw [if_pos hp] at hk'
      simp only [List.map_cons, List.mem_cons] at hk'
      rcases hk' with h | h
      · exact Or.inl h
      · exact Or.inr (by simp [h])
    · rw [if_neg hp] at hk'
      simp only [List.map_cons, List.mem_cons] at hk'
      rcases hk' with h | h
      · exact Or.inr (by simp [h])
      · rcases ih k' h with h2 | h2
        · exact Or.inl h2
        · exact Or.inr (by simp [h2])

theorem keys_foldl_serialize {α σ : Type} (args : String → Option α)
    (san : α → σ → Option String) (pre : String) :
    ∀ (l : List (String × σ)) (acc : List (String × String)),
      ∀ K ∈ (l.foldl
          (fun u x =>
            match serializeValue args san x with
            | some v => uspSet u (pre ++ x.1) v
            | none => u) acc).map Prod.fst,
        K ∈ acc.map Prod.fst ∨ ∃ x ∈ l, K = pre ++ x.1 := by
  intro l
  induction l with
  | nil =>
    intro acc K hK
    exact Or.inl hK
  | cons x l ih =>
    intro acc K hK
    rw [List.foldl_cons] at hK
    rcases ih _ K hK with h | h
    · cases hv : serializeValue args san x with
      | none =>
        rw [hv] at h
        exact Or.inl h
      | some v =>
        rw [hv] at h
        rcases keys_uspSet_subset acc (pre ++ x.1) v K h with h2 | h2
        · exact Or.inr ⟨x, List.mem_cons_self x l, h2⟩
        · exact Or.inl h2
    · rcases h with ⟨y, hy, hKy⟩
      exact Or.inr ⟨y, List.mem_cons_of_mem x hy, hKy⟩

theorem keys_foldl_deserialize {β σ : Type} (ps : List (String × String))
    (pre : String) (useDefaults : Bool)
    (san : RawParam → σ → Bool → Option β) :
    ∀ (l : List (String × σ)) (acc : List (String × β)),
      ∀ K ∈ (l.foldl
          (fun u x =>
            match deserializeValue ps pre useDefaults san x with
            | some v => objSet u x.1 v
            | none => u) acc).map Prod.fst,
        K ∈ acc.map Prod.fst ∨ ∃ x ∈ l, K = x.1 := by
  intro l
  induction l with
  | nil =>
    intro acc K hK
    exact Or.inl hK
  | cons x l ih =>
    intro acc K hK
    rw [List.foldl_cons] at hK
    rcases ih _ K hK with h | h
    · cases hv : deserializeValue ps pre useDefaults san x with
      | none =>
        rw [hv] at h
        exact Or.inl h
      | some v =>
        rw [hv] at h
        rcases keys_objSet_subset acc x.1 v K h with h2 | h2
        · exact Or.inr ⟨x, List.mem_cons_self x l, h2⟩
        · exact Or.inl h2
    · rcases h with ⟨y, hy, hKy⟩
      exact Or.inr ⟨y, List.mem_cons_of_mem x hy, hKy⟩

theorem mem_keys_foldl_uspSet (ps : List (String × String)) {k : String} :
    ∀ (b : List (String × String)), k ∈ b.map Prod.fst →
      k ∈ (ps.foldl (fun u kv => uspSet u kv.1 kv.2) b).map Prod.fst := by
  induction ps with
  | nil =>
    intro b hb
    exact hb
  | cons kv ps ih =>
    intro b hb
    simp only [List.foldl_cons]
    exact ih (uspSet b kv.1 kv.2) (mem_keys_uspSet_of_mem kv.1 kv.2 hb)

theorem nodup_keys_foldl {γ : Type}
    (step : List (String × String) → γ → List (String × String))
    (hpres : ∀ acc x, (acc.map Prod.fst).Nodup →
      ((step acc x).map Prod.fst).Nodup) :
    ∀ (l : List γ) (acc : List (String × String)),
      (acc.map Prod.fst).Nodup → ((l.foldl step acc).map Prod.fst).Nodup := by
  intro l
  induction l with
  | nil =>
    intro acc h
    exact h
  | cons x l ih =>
    intro acc h
    simp only [List.foldl_cons]
    exact ih (step acc x) (hpres acc x h)

/-! ### Form extraction helpers -/

theorem formHas_iff (formData : List (String × String)) (name : String) :
    formHas formData name = true ↔ formGetAll formData name ≠ [] := by
  induction formData with
  | nil => simp [formHas, formGetAll]
  | cons p rest ih =>
    by_cases hp : p.1 = name
    · simp [formHas, formGetAll, hp]
    · simp only [formHas, formGetAll, List.any_cons, List.filter_cons] at ih ⊢
      simp only [show (p.1 == name) = false by simp [hp]]
      simp

/-! ### Object spread helpers -/

theorem objGet_spreadMerge (overrides : List (String × String))
    (base : List (String × String)) (hnd : (overrides.map Prod.fst).Nodup)
    (k : String) :
    objGet (spreadMerge base overrides) k
      = match objGet overrides k with
        | some v => some v
        | none => objGet base k := by
  induction overrides generalizing base with
  | nil => simp [spreadMerge, objGet]
  | cons kv ov ih =>
    simp only [List.map_cons, List.nodup_cons] at hnd
    have hstep : spreadMerge base (kv :: ov)
        = spreadMerge (objSet base kv.1 kv.2) ov := rfl
    rw [hstep, ih (objSet base kv.1 kv.2) hnd.2]
    by_cases hk : kv.1 = k
    · have hov : objGet ov k = none :=
        objGet_eq_none_of_not_mem (hk ▸ hnd.1)
      have h1 : objGet (kv :: ov) k = some kv.2 := by
        simp only [objGet, if_pos hk]
      rw [hov, h1, objGet_objSet, if_pos hk.symm]
    · have hk2 : ¬k = kv.1 := fun hh => hk hh.symm
      have h1 : objGet (kv :: ov) k = objGet ov k := by
        simp only [objGet, if_neg hk]
      rw [h1, objGet_objSet, if_neg hk2]

/-! ### Claim theorems -/

/-- Claim C1, counterexample to the claim as stated: `URLSearchParams.get`
returns `null` (not `undefined`) for an absent parameter, so the
`typeof param !== 'undefined'` guard always passes and `sanitizeArg` is
called with `null`, not with `undefined`, when `prefix+key` is absent.  A
sanitizer that distinguishes the two separates the source behavior from the
claimed behavior. -/
theorem claimC1_counterexample :
    getArgsFromUrlParams ([] : List (String × String))
        [("k", ArgSpec.mk "string" none none)] "" true
        (fun p _ _ =>
          match p with
          | RawParam.null => some "fromNull"
          | _ => none)
      ≠ getArgsFromUrlParamsSpec []
        [("k", ArgSpec.mk "string" none none)] "" true
        (fun p _ _ =>
          match p with
          | RawParam.null => some "fromNull"
          | _ => none) := by
  decide

/-- Claim C1 as amended: for every URL-parameter set, schema (with
pairwise-distinct keys, as JavaScript object keys are), prefix and
`useDefaults` flag, the produced arguments object binds, for each schema
key, the value returned by `sanitizeArg` applied to the raw parameter
string when `prefix+key` is present and to `null` (the miss value of
`URLSearchParams.get`) when it is absent; whenever `sanitizeArg` returns
`null`, that key is absent from the result entirely. -/
theorem claimC1_deserialize {β σ : Type} (urlParams : List (String × String))
    (schema : List (String × σ)) (pre : String) (useDefaults : Bool)
    (sanitizeArg : RawParam → σ → Bool → Option β)
    (hnd : (schema.map Prod.fst).Nodup) :
    getArgsFromUrlParams urlParams schema pre useDefaults sanitizeArg
      = schema.filterMap (fun x =>
          (sanitizeArg (toRaw (uspGet urlParams (pre ++ x.1))) x.2
              useDefaults).map (fun v => (x.1, v))) :=
  getArgsFromUrlParams_eq_filterMap urlParams schema pre useDefaults
    sanitizeArg hnd

/-- Witness for claim C1: a present parameter is sanitized from its raw
string, an absent one from `null` (here mapped to the schema default). -/
theorem claimC1_deserialize_witness :
    getArgsFromUrlParams [("ep-q", "chairs")]
        [("q", ArgSpec.mk "string" none none),
         ("page", ArgSpec.mk "number" (some "1") none)] "ep-" true
        (fun p s _ =>
          match p with
          | RawParam.str v => some v
          | RawParam.null => s.default
          | RawParam.undef => none)
      = [("q", "chairs"), ("page", "1")] :=
  (claimC1_deserialize [("ep-q", "chairs")]
    [("q", ArgSpec.mk "string" none none),
     ("page", ArgSpec.mk "number" (some "1") none)] "ep-" true
    (fun p s _ =>
      match p with
      | RawParam.str v => some v
      | RawParam.null => s.default
      | RawParam.undef => none)
    (by decide)).trans (by decide)

/-- Claim C2: for every arguments object, schema (with pairwise-distinct
keys) and prefix, the produced parameter set holds, for each schema key
whose argument value is defined, exactly the entry
`prefix+key ↦ sanitizeParam(value, spec)` when that call returns a string;
an undefined argument value contributes no parameter (the formula below
does not consult `sanitizeParam` in that branch, so no default is emitted),
and a `null` sanitizer result suppresses the parameter. -/
theorem claimC2_serialize {α σ : Type} (args : String → Option α)
    (schema : List (String × σ)) (pre : String)
    (sanitizeParam : α → σ → Option String)
    (hnd : (schema.map Prod.fst).Nodup) :
    getUrlParamsFromArgs args schema pre sanitizeParam
      = schema.filterMap (fun x =>
          match args x.1 with
          | some v => (sanitizeParam v x.2).map (fun s => (pre ++ x.1, s))
          | none => none) := by
  rw [getUrlParamsFromArgs_eq_filterMap args schema pre sanitizeParam hnd]
  congr 1
  funext x
  cases h : args x.1 <;> simp [serializeValue, h]

/-- Witness for claim C2: a defined argument is emitted under its prefixed
key, an undefined one is dropped. -/
theorem claimC2_serialize_witness :
    getUrlParamsFromArgs (fun k => if k = "q" then some "chairs" else none)
        [("q", ArgSpec.mk "string" none none),
         ("page", ArgSpec.mk "number" (some "1") none)] "ep-"
        (fun v _ => some v)
      = [("ep-q", "chairs")] :=
  (claimC2_serialize (fun k => if k = "q" then some "chairs" else none)
    [("q", ArgSpec.mk "string" none none),
     ("page", ArgSpec.mk "number" (some "1") none)] "ep-"
    (fun v _ => some v) (by decide)).trans (by decide)

/-- Claim C4: the rewritten URL keeps the base of the current location,
removes every existing query parameter whose key starts with the prefix
(the delete loop is a filter), then sets every supplied pair in iteration
order; with no parameter set supplied the result is just the stripped
parameter list. -/
theorem claimC4_rewrite (current : URLModel) (pre : String) :
    (∀ params, (getUrlWithParams current pre params).base = current.base)
    ∧ (getUrlWithParams current pre none).searchParams
        = current.searchParams.filter (fun p => !(strStartsWith p.1 pre))
    ∧ ∀ ps, (getUrlWithParams current pre (some ps)).searchParams
        = ps.foldl (fun u kv => uspSet u kv.1 kv.2)
            (current.searchParams.filter
              (fun p => !(strStartsWith p.1 pre))) := by
  refine ⟨fun params => ?_, ?_, fun ps => ?_⟩
  · cases params <;> rfl
  · rw [getUrlWithParams_none]
  · rw [getUrlWithParams_some]

/-- Claim C5: the single `post_type` field, when present, shadows the
`post_type[]` group — only its last submitted value is returned; when it is
absent the result is exactly the `post_type[]` values (so the empty list
when neither field is present). -/
theorem claimC5_post_types (formData : List (String × String)) :
    (∀ v, (formGetAll formData "post_type").getLast? = some v →
      getPostTypesFromForm formData = [v])
    ∧ (formGetAll formData "post_type" = [] →
      getPostTypesFromForm formData = formGetAll formData "post_type[]") := by
  constructor
  · intro v hv
    have hne : formGetAll formData "post_type" ≠ [] := by
      intro h0
      rw [h0] at hv
      simp at hv
    have hhas : formHas formData "post_type" = true :=
      (formHas_iff formData "post_type").mpr hne
    unfold getPostTypesFromForm
    rw [if_pos hhas]
    unfold jsSliceLastOne
    rw [hv]
  · intro h0
    have hhas : formHas formData "post_type" = false := by
      cases hf : formHas formData "post_type"
      · rfl
      · exact absurd h0 ((formHas_iff formData "post_type").mp hf)
    unfold getPostTypesFromForm
    rw [if_neg (by simp [hhas])]
    by_cases h2 : formHas formData "post_type[]"
    · rw [if_pos h2]
    · rw [if_neg h2]
      have hnil : formGetAll formData "post_type[]" = [] := by
        by_contra hne
        exact h2 ((formHas_iff formData "post_type[]").mpr hne)
      rw [hnil]

/-- Witness for claim C5: with both fields submitted, only the last
`post_type` value is returned. -/
theorem claimC5_post_types_witness :
    getPostTypesFromForm
        [("post_type[]", "Y"), ("post_type[]", "Z"), ("post_type", "X")]
      = ["X"] :=
  (claimC5_post_types
    [("post_type[]", "Y"), ("post_type[]", "Z"), ("post_type", "X")]).1 "X"
    (by decide)

/-- Claim C8: the emitted parameter keys form a subsequence of the
prefixed schema keys in schema iteration order, so insertion order follows
the schema, not the arguments object (which is only consulted pointwise). -/
theorem claimC8_schema_order {α σ : Type} (args : String → Option α)
    (schema : List (String × σ)) (pre : String)
    (sanitizeParam : α → σ → Option String)
    (hnd : (schema.map Prod.fst).Nodup) :
    ((getUrlParamsFromArgs args schema pre sanitizeParam).map
        Prod.fst).Sublist (schema.map (fun x => pre ++ x.1)) := by
  rw [getUrlParamsFromArgs_eq_filterMap args schema pre sanitizeParam hnd]
  exact keys_filterMap_sublist schema (fun x => pre ++ x.1)
    (serializeValue args sanitizeParam)

/-- Witness for claim C8: with both arguments defined, the emitted keys
come out in schema order. -/
theorem claimC8_schema_order_witness :
    ((getUrlParamsFromArgs
        (fun k => if k = "q" then some "chairs" else some "5")
        [("page", ArgSpec.mk "number" none none),
         ("q", ArgSpec.mk "string" none none)] "ep-"
        (fun v _ => some v)).map Prod.fst).Sublist
      ([("page", ArgSpec.mk "number" none none),
        ("q", ArgSpec.mk "string" none none)].map (fun x => "ep-" ++ x.1)) :=
  claimC8_schema_order (fun k => if k = "q" then some "chairs" else some "5")
    [("page", ArgSpec.mk "number" none none),
     ("q", ArgSpec.mk "string" none none)] "ep-" (fun v _ => some v)
    (by decide)

/-- Claim C10: serialization uses overwrite-style insertion
(`URLSearchParams.set`), so the produced parameter set never holds two
entries with the same key, for any arguments object, schema and prefix —
no distinctness assumption on the schema is needed. -/
theorem claimC10_unique_keys {α σ : Type} (args : String → Option α)
    (schema : List (String × σ)) (pre : String)
    (sanitizeParam : α → σ → Option String) :
    ((getUrlParamsFromArgs args schema pre sanitizeParam).map
        Prod.fst).Nodup := by
  unfold getUrlParamsFromArgs
  refine nodup_keys_foldl _ ?_ schema [] (by simp)
  intro acc x h
  show ((match serializeValue args sanitizeParam x with
        | some v => uspSet acc (pre ++ x.1) v
        | none => acc).map Prod.fst).Nodup
  cases hv : serializeValue args sanitizeParam x with
  | none => exact h
  | some v => exact nodup_keys_uspSet (pre ++ x.1) v h

/-- Claim C9: `formatPrice` calls the platform currency formatter with the
runtime locale (`navigator.language`) as the locale argument, and with the
caller options spread over the defaults
(`style: currency`, `currencyDisplay: narrowSymbol`), caller entries taking
precedence. -/
theorem claimC9_format_price {α : Type}
    (numberFormat : String → List (String × String) → α → String)
    (navigatorLanguage : String) (number : α)
    (options : List (String × String))
    (hnd : (options.map Prod.fst).Nodup) :
    formatPrice numberFormat navigatorLanguage number options
      = numberFormat navigatorLanguage
          (spreadMerge priceFormatDefaults options) number
    ∧ ∀ k, objGet (spreadMerge priceFormatDefaults options) k
        = match objGet options k with
          | some v => some v
          | none => objGet priceFormatDefaults k :=
  ⟨rfl, fun k => objGet_spreadMerge options priceFormatDefaults hnd k⟩

/-- Witness for claim C9: the locale handed to the formatter is the runtime
locale, and a caller-supplied `currencyDisplay` overrides the default. -/
theorem claimC9_format_price_witness :
    formatPrice (fun l _ _ => l) "en-US" (0 : Nat)
        [("currency", "EUR"), ("currencyDisplay", "code")] = "en-US"
    ∧ objGet (spreadMerge priceFormatDefaults
          [("currency", "EUR"), ("currencyDisplay", "code")])
        "currencyDisplay" = some "code" := by
  have h := claimC9_format_price (fun l _ _ => l) "en-US" (0 : Nat)
    [("currency", "EUR"), ("currencyDisplay", "code")] (by decide)
  exact ⟨h.1, (h.2 "currencyDisplay").trans (by decide)⟩

/-- Claim C3: round-trip — serializing an arguments object and
deserializing the result with `useDefaults=false` restores every schema key
whose value the sanitizers accept (here: `sanitizeParam` emits a string for
it and `sanitizeArg` maps that string back to a value). -/
theorem claimC3_roundtrip {α β σ : Type} (schema : List (String × σ))
    (pre : String) (args : String → Option α)
    (sanitizeParam : α → σ → Option String)
    (sanitizeArg : RawParam → σ → Bool → Option β)
    (hnd : (schema.map Prod.fst).Nodup)
    (k : String) (s : σ) (v : α) (str : String) (w : β)
    (hks : (k, s) ∈ schema) (hv : args k = some v)
    (hp : sanitizeParam v s = some str)
    (ha : sanitizeArg (RawParam.str str) s false = some w) :
    objGet (getArgsFromUrlParams
        (getUrlParamsFromArgs args schema pre sanitizeParam)
        schema pre false sanitizeArg) k = some w := by
  have hchar :=
    getUrlParamsFromArgs_eq_filterMap args schema pre sanitizeParam hnd
  have hmem : (pre ++ k, str)
      ∈ getUrlParamsFromArgs args schema pre sanitizeParam := by
    rw [hchar]
    refine List.mem_filterMap.mpr ⟨(k, s), hks, ?_⟩
    simp [serializeValue, hv, hp]
  have hkeys : ((getUrlParamsFromArgs args schema pre
      sanitizeParam).map Prod.fst).Nodup := by
    rw [hchar]
    exact (nodup_pre_keys pre hnd).sublist
      (keys_filterMap_sublist schema (fun x => pre ++ x.1)
        (serializeValue args sanitizeParam))
  have hget : uspGet (getUrlParamsFromArgs args schema pre sanitizeParam)
      (pre ++ k) = some str :=
    objGet_eq_some_of_mem hkeys hmem
  have hchar2 := getArgsFromUrlParams_eq_filterMap
    (getUrlParamsFromArgs args schema pre sanitizeParam) schema pre false
    sanitizeArg hnd
  have hmem2 : (k, w) ∈ getArgsFromUrlParams
      (getUrlParamsFromArgs args schema pre sanitizeParam) schema pre false
      sanitizeArg := by
    rw [hchar2]
    refine List.mem_filterMap.mpr ⟨(k, s), hks, ?_⟩
    simp [hget, toRaw, ha]
  have hkeys2 : ((getArgsFromUrlParams
      (getUrlParamsFromArgs args schema pre sanitizeParam) schema pre false
      sanitizeArg).map Prod.fst).Nodup := by
    rw [hchar2]
    exact hnd.sublist (keys_filterMap_sublist schema Prod.fst
      (fun x => sanitizeArg
        (toRaw (uspGet (getUrlParamsFromArgs args schema pre sanitizeParam)
          (pre ++ x.1))) x.2 false))
  exact objGet_eq_some_of_mem hkeys2 hmem2

/-- Witness for claim C3: the spec example — schema `{q: string}`, prefix
`ep-`, args `{q: chairs}` — round-trips. -/
theorem claimC3_roundtrip_witness :
    objGet (getArgsFromUrlParams
        (getUrlParamsFromArgs (fun k => if k = "q" then some "chairs" else none)
          [("q", ArgSpec.mk "string" none none)] "ep-" (fun v _ => some v))
        [("q", ArgSpec.mk "string" none none)] "ep-" false
        (fun p _ _ =>
          match p with
          | RawParam.str s => some s
          | _ => none)) "q" = some "chairs" :=
  claimC3_roundtrip [("q", ArgSpec.mk "string" none none)] "ep-"
    (fun k => if k = "q" then some "chairs" else none) (fun v _ => some v)
    (fun p _ _ =>
      match p with
      | RawParam.str s => some s
      | _ => none)
    (by decide) "q" (ArgSpec.mk "string" none none) "chairs" "chairs" "chairs"
    (by decide) (by decide) rfl rfl

/-- Claim C6, counterexample to the claim as stated: when a supplied
parameter key does not start with the prefix it survives the strip step of
the second application, so re-setting it does not re-append it; the second
rewrite can therefore reorder the query string. -/
theorem claimC6_counterexample :
    getUrlWithParams
        (getUrlWithParams (URLModel.mk "https://example.com/" []) "ep-"
          (some [("ep-a", "1"), ("k", "2")])) "ep-"
        (some [("ep-a", "1"), ("k", "2")])
      ≠ getUrlWithParams (URLModel.mk "https://example.com/" []) "ep-"
          (some [("ep-a", "1"), ("k", "2")]) := by
  decide

/-- Claim C6 as amended: rewriting twice with the same prefix and the same
parameter set yields the same URL, provided every supplied parameter key
starts with the prefix (the namespace usage the rewrite is built for); a
missing parameter set is covered unconditionally. -/
theorem claimC6_idempotent (current : URLModel) (pre : String)
    (params : Option (List (String × String)))
    (h : ∀ kv ∈ params.getD [], strStartsWith kv.1 pre = true) :
    getUrlWithParams (getUrlWithParams current pre params) pre params
      = getUrlWithParams current pre params := by
  cases params with
  | none =>
    rw [getUrlWithParams_none current pre, getUrlWithParams_none]
    congr 1
    rw [List.filter_filter]
    simp
  | some ps =>
    have h' : ∀ kv ∈ ps, strStartsWith kv.1 pre = true := by simpa using h
    have hA : ∀ k ∈ (current.searchParams.filter
        (fun p => !(strStartsWith p.1 pre))).map Prod.fst,
        strStartsWith k pre = false := by
      intro k hk
      rcases List.mem_map.mp hk with ⟨q, hq, hqk⟩
      have hpred := (List.mem_filter.mp hq).2
      rw [← hqk]
      simpa using hpred
    have hsplit := foldl_uspSet_append pre ps
      (current.searchParams.filter (fun p => !(strStartsWith p.1 pre))) []
      h' hA
    rw [List.append_nil] at hsplit
    have hB : ∀ k ∈ (ps.foldl (fun u kv => uspSet u kv.1 kv.2)
        ([] : List (String × String))).map Prod.fst,
        strStartsWith k pre = true :=
      keys_foldl_uspSet_prefixed pre ps [] h' (by simp)
    rw [getUrlWithParams_some current pre ps, getUrlWithParams_some]
    congr 1
    rw [hsplit, List.filter_append]
    have hAf : (current.searchParams.filter
          (fun p => !(strStartsWith p.1 pre))).filter
          (fun p => !(strStartsWith p.1 pre))
        = current.searchParams.filter (fun p => !(strStartsWith p.1 pre)) := by
      rw [List.filter_filter]
      simp
    have hBf : (ps.foldl (fun u kv => uspSet u kv.1 kv.2)
          ([] : List (String × String))).filter
          (fun p => !(strStartsWith p.1 pre)) = [] := by
      rw [List.filter_eq_nil_iff]
      intro q hq
      simp [hB q.1 (List.mem_map_of_mem Prod.fst hq)]
    rw [hAf, hBf, List.append_nil]
    exact hsplit

/-- Witness for claim C6: rewriting with prefixed parameters twice equals
rewriting once. -/
theorem claimC6_idempotent_witness :
    getUrlWithParams
        (getUrlWithParams
          (URLModel.mk "https://example.com/" [("page", "2"), ("ep-q", "a")])
          "ep-" (some [("ep-q", "chairs")])) "ep-"
        (some [("ep-q", "chairs")])
      = getUrlWithParams
          (URLModel.mk "https://example.com/" [("page", "2"), ("ep-q", "a")])
          "ep-" (some [("ep-q", "chairs")]) :=
  claimC6_idempotent
    (URLModel.mk "https://example.com/" [("page", "2"), ("ep-q", "a")]) "ep-"
    (some [("ep-q", "chairs")]) (by decide)

/-- Claim C7 (frame): deserialization reads only the parameters
`prefix+key` for schema keys; the URL rewrite never removes a parameter
whose key does not start with the prefix; serialization writes only
prefixed schema keys and reads the arguments object only at schema keys;
deserialization binds only schema keys. -/
theorem claimC7_frame {α β σ : Type} (schema : List (String × σ))
    (pre : String) (useDefaults : Bool)
    (sanitizeArg : RawParam → σ → Bool → Option β)
    (sanitizeParam : α → σ → Option String) (current : URLModel)
    (params : Option (List (String × String))) :
    (∀ ps₁ ps₂ : List (String × String),
      (∀ x ∈ schema, uspGet ps₁ (pre ++ x.1) = uspGet ps₂ (pre ++ x.1)) →
      getArgsFromUrlParams ps₁ schema pre useDefaults sanitizeArg
        = getArgsFromUrlParams ps₂ schema pre useDefaults sanitizeArg)
    ∧ (∀ k, k ∈ current.searchParams.map Prod.fst →
        strStartsWith k pre = false →
        k ∈ (getUrlWithParams current pre params).searchParams.map Prod.fst)
    ∧ (∀ args : String → Option α,
        ∀ K ∈ (getUrlParamsFromArgs args schema pre sanitizeParam).map
          Prod.fst, ∃ x ∈ schema, K = pre ++ x.1)
    ∧ (∀ ps : List (String × String),
        ∀ k ∈ (getArgsFromUrlParams ps schema pre useDefaults
          sanitizeArg).map Prod.fst, ∃ x ∈ schema, k = x.1)
    ∧ (∀ args₁ args₂ : String → Option α,
        (∀ x ∈ schema, args₁ x.1 = args₂ x.1) →
        getUrlParamsFromArgs args₁ schema pre sanitizeParam
          = getUrlParamsFromArgs args₂ schema pre sanitizeParam) := by
  refine ⟨?_, ?_, ?_, ?_, ?_⟩
  · intro ps₁ ps₂ h
    have hval : ∀ x ∈ schema,
        deserializeValue ps₁ pre useDefaults sanitizeArg x
          = deserializeValue ps₂ pre useDefaults sanitizeArg x := by
      intro x hx
      unfold deserializeValue
      rw [h x hx]
    unfold getArgsFromUrlParams
    exact foldl_congr_step _ _ schema
      (fun acc x hx => by
        show (match deserializeValue ps₁ pre useDefaults sanitizeArg x with
              | some v => objSet acc x.1 v
              | none => acc)
            = match deserializeValue ps₂ pre useDefaults sanitizeArg x with
              | some v => objSet acc x.1 v
              | none => acc
        rw [hval x hx]) []
  · intro k hk hsw
    rcases List.mem_map.mp hk with ⟨q, hq, hqk⟩
    have hqin : q ∈ current.searchParams.filter
        (fun p => !(strStartsWith p.1 pre)) :=
      List.mem_filter.mpr ⟨hq, by simp [hqk, hsw]⟩
    cases params with
    | none =>
      rw [getUrlWithParams_none]
      exact hqk ▸ List.mem_map_of_mem Prod.fst hqin
    | some ps =>
      rw [getUrlWithParams_some]
      exact mem_keys_foldl_uspSet ps _
        (hqk ▸ List.mem_map_of_mem Prod.fst hqin)
  · intro args K hK
    unfold getUrlParamsFromArgs at hK
    rcases keys_foldl_serialize args sanitizeParam pre schema [] K hK
      with h | h
    · simp at h
    · exact h
  · intro ps k hk
    unfold getArgsFromUrlParams at hk
    rcases keys_foldl_deserialize ps pre useDefaults sanitizeArg schema [] k hk
      with h | h
    · simp at h
    · exact h
  · intro args₁ args₂ h
    have hval : ∀ x ∈ schema,
        serializeValue args₁ sanitizeParam x
          = serializeValue args₂ sanitizeParam x := by
      intro x hx
      unfold serializeValue
      rw [h x hx]
    unfold getUrlParamsFromArgs
    exact foldl_congr_step _ _ schema
      (fun acc x hx => by
        show (match serializeValue args₁ sanitizeParam x with
              | some v => uspSet acc (pre ++ x.1) v
              | none => acc)
            = match serializeValue args₂ sanitizeParam x with
              | some v => uspSet acc (pre ++ x.1) v
              | none => acc
        rw [hval x hx]) []

/-- Witness for claim C7: each frame property at a concrete schema, prefix
and URL. -/
theorem claimC7_frame_witness :
    (getArgsFromUrlParams [("ep-q", "chairs"), ("x", "1")]
        [("q", ArgSpec.mk "string" none none)] "ep-" true
        (fun p _ _ =>
          match p with
          | RawParam.str s => some s
          | _ => none)
      = getArgsFromUrlParams [("ep-q", "chairs")]
        [("q", ArgSpec.mk "string" none none)] "ep-" true
        (fun p _ _ =>
          match p with
          | RawParam.str s => some s
          | _ => none))
    ∧ "page" ∈ (getUrlWithParams
        (URLModel.mk "https://example.com/"
          [("page", "2"), ("ep-q", "chairs")]) "ep-"
        (some [("ep-q", "tables")])).searchParams.map Prod.fst
    ∧ (∃ x ∈ [("q", ArgSpec.mk "string" none none)], "ep-q" = "ep-" ++ x.1)
    ∧ (∃ x ∈ [("q", ArgSpec.mk "string" none none)], "q" = x.1)
    ∧ getUrlParamsFromArgs (fun k => if k = "q" then some "chairs" else none)
        [("q", ArgSpec.mk "string" none none)] "ep-" (fun v _ => some v)
      = getUrlParamsFromArgs
        (fun k => if k = "q" then some "chairs" else some "junk")
        [("q", ArgSpec.mk "string" none none)] "ep-" (fun v _ => some v) := by
  have T := claimC7_frame [("q", ArgSpec.mk "string" none none)] "ep-" true
    (fun p _ _ =>
      match p with
      | RawParam.str s => some s
      | _ => none)
    (fun (v : String) (_ : ArgSpec) => some v)
    (URLModel.mk "https://example.com/" [("page", "2"), ("ep-q", "chairs")])
    (some [("ep-q", "tables")])
  refine ⟨T.1 [("ep-q", "chairs"), ("x", "1")] [("ep-q", "chairs")]
      (by decide),
    T.2.1 "page" (by decide) (by decide),
    T.2.2.1 (fun k => if k = "q" then some "chairs" else none) "ep-q"
      (by decide),
    T.2.2.2.1 [("ep-q", "chairs")] "q" (by decide),
    T.2.2.2.2 (fun k => if k = "q" then some "chairs" else none)
      (fun k => if k = "q" then some "chairs" else some "junk") (by decide)⟩

end ElasticPress
